import Mathlib

/-!
Verification of the metadata-aggregation and value-decoding engine of the
`parqeye` Parquet inspector.

The Rust sources embedded here are `src/dictionary.rs`
(`extract_dictionary_values`) and `src/file/schema.rs`
(`FileSchema::from_metadata`, `traverse`, `aggregate_column_stats`,
`decode_value`).  Machine integers are modelled as `Nat`/`Int` with explicit
reductions modulo `2^w` where Rust wrapping (release-mode overflow, `as`
casts) matters.  Bytes are `Fin 256`.
-/

set_option maxRecDepth 10000

namespace Parqeye

/-- A byte, as stored in a Rust `&[u8]` buffer. -/
abbrev Byte := Fin 256

/-- Little-endian value of a byte slice (`u32::from_le_bytes`,
`u64::from_le_bytes` read the slice this way). -/
def leNat : List Byte → Nat
  | [] => 0
  | b :: rest => b.val + 256 * leNat rest

/-- Two's-complement reinterpretation of a `w`-bit unsigned value as signed
(`i32::from_le_bytes`, `i64::from_le_bytes`, `as i64`). -/
def toSigned (w : Nat) (u : Nat) : Int :=
  if u < 2 ^ (w - 1) then (u : Int) else (u : Int) - 2 ^ w

/-- The sixteen uppercase hexadecimal digit characters. -/
def hexDigit (n : Nat) : Char :=
  (List.getD ['0', '1', '2', '3', '4', '5', '6', '7', '8', '9',
              'A', 'B', 'C', 'D', 'E', 'F'] n '0')

/-- Rust `format!("{:02X}", b)` for a byte: two uppercase hex digits. -/
def byteHex (b : Byte) : String :=
  String.mk [hexDigit (b.val / 16), hexDigit (b.val % 16)]

/-- Rust `bytes.iter().map(|b| format!("{b:02X}")).collect::<Vec<_>>().join("")`. -/
def hexConcat (bytes : List Byte) : String :=
  String.join (bytes.map byteHex)

/-- UTF-8 decoding of a byte list into characters, exactly as accepted by
`std::str::from_utf8`: rejects stray/missing continuation bytes, overlong
encodings, surrogate code points and code points above `0x10FFFF`. -/
def utf8DecodeChars (l : List Byte) : Option (List Char) :=
  match l with
  | [] => some []
  | b :: rest =>
    let n := b.val
    if n < 0x80 then
      (utf8DecodeChars rest).map (Char.ofNat n :: ·)
    else if n < 0xC0 then
      none
    else if n < 0xE0 then
      match rest with
      | b1 :: rest1 =>
        if 0x80 ≤ b1.val ∧ b1.val < 0xC0 then
          let cp := (n - 0xC0) * 0x40 + (b1.val - 0x80)
          if 0x80 ≤ cp then (utf8DecodeChars rest1).map (Char.ofNat cp :: ·)
          else none
        else none
      | [] => none
    else if n < 0xF0 then
      match rest with
      | b1 :: b2 :: rest2 =>
        if (0x80 ≤ b1.val ∧ b1.val < 0xC0) ∧ (0x80 ≤ b2.val ∧ b2.val < 0xC0) then
          let cp := (n - 0xE0) * 0x1000 + (b1.val - 0x80) * 0x40 + (b2.val - 0x80)
          if 0x800 ≤ cp ∧ ¬(0xD800 ≤ cp ∧ cp < 0xE000) then
            (utf8DecodeChars rest2).map (Char.ofNat cp :: ·)
          else none
        else none
      | _ => none
    else if n < 0xF8 then
      match rest with
      | b1 :: b2 :: b3 :: rest3 =>
        if (0x80 ≤ b1.val ∧ b1.val < 0xC0) ∧ (0x80 ≤ b2.val ∧ b2.val < 0xC0) ∧
           (0x80 ≤ b3.val ∧ b3.val < 0xC0) then
          let cp := (n - 0xF0) * 0x40000 + (b1.val - 0x80) * 0x1000 +
                    (b2.val - 0x80) * 0x40 + (b3.val - 0x80)
          if 0x10000 ≤ cp ∧ cp ≤ 0x10FFFF then
            (utf8DecodeChars rest3).map (Char.ofNat cp :: ·)
          else none
        else none
      | _ => none
    else none

/-- Rust `std::str::from_utf8(bytes).map(|s| s.to_string())` as an `Option`. -/
def utf8Decode (bytes : List Byte) : Option String :=
  (utf8DecodeChars bytes).map String.mk

/-- The Parquet physical types (`parquet::basic::Type`), an externally
defined closed set consumed by this engine. -/
inductive PhysicalType where
  | BOOLEAN
  | INT32
  | INT64
  | INT96
  | FLOAT
  | DOUBLE
  | BYTE_ARRAY
  | FIXED_LEN_BYTE_ARRAY
  deriving DecidableEq, Repr

/-- Rust `format!("{}", physical_type)` / `format!("{:?}", physical_type)`: both
print the uppercase variant name for `parquet::basic::Type`. -/
def PhysicalType.display : PhysicalType → String
  | .BOOLEAN => "BOOLEAN"
  | .INT32 => "INT32"
  | .INT64 => "INT64"
  | .INT96 => "INT96"
  | .FLOAT => "FLOAT"
  | .DOUBLE => "DOUBLE"
  | .BYTE_ARRAY => "BYTE_ARRAY"
  | .FIXED_LEN_BYTE_ARRAY => "FIXED_LEN_BYTE_ARRAY"

/-- Left-pad a string with zeros to the given length (decimal rendering of
fixed-width fraction digits). -/
def padZeros (width : Nat) (s : String) : String :=
  String.mk (List.replicate (width - s.length) '0') ++ s

/-- Round `num / 2^k` to the nearest integer, ties to even — the rounding
Rust's `{:.p}` float formatting performs on the exact binary value. -/
def roundHalfEven (num : Nat) (k : Nat) : Nat :=
  let den := 2 ^ k
  let q := num / den
  let r := num % den
  if 2 * r > den then q + 1
  else if 2 * r = den then q + q % 2
  else q

/-- Rust `format!("{:.prec}", f)` for an IEEE-754 value with `wExp` exponent
bits and `wFrac` fraction bits, given the raw bit pattern `u`.  Renders the
exact binary value with `prec` decimals (ties to even), `inf`/`-inf`/`NaN`
like Rust's `Display`. -/
def formatIEEE (wExp wFrac : Nat) (u : Nat) (prec : Nat) : String :=
  let frac := u % 2 ^ wFrac
  let exp := u / 2 ^ wFrac % 2 ^ wExp
  let negative := u / 2 ^ (wExp + wFrac) % 2 = 1
  let maxExp := 2 ^ wExp - 1
  let bias := 2 ^ (wExp - 1) - 1
  if exp = maxExp then
    if frac = 0 then (if negative then "-inf" else "inf") else "NaN"
  else
    -- value magnitude = m * 2^e with e = eRaw - (bias + wFrac) possibly negative
    let m := if exp = 0 then frac else 2 ^ wFrac + frac
    let eRaw := if exp = 0 then 1 else exp
    let shift := bias + wFrac
    let num := m * 10 ^ prec
    let q := if shift ≤ eRaw then num * 2 ^ (eRaw - shift)
             else roundHalfEven num (shift - eRaw)
    let intPart := q / 10 ^ prec
    let fracPart := q % 10 ^ prec
    (if negative then "-" else "") ++ toString intPart ++ "." ++
      padZeros prec (toString fracPart)

/-- Rust `format!("{:.prec}", f32::from_le_bytes(bytes))`. -/
def formatF32 (bytes : List Byte) (prec : Nat) : String :=
  formatIEEE 8 23 (leNat bytes) prec

/-- Rust `format!("{:.prec}", f64::from_le_bytes(bytes))`. -/
def formatF64 (bytes : List Byte) (prec : Nat) : String :=
  formatIEEE 11 52 (leNat bytes) prec

/-- Function `decode_value` from `src/file/schema.rs`: decode raw statistics bytes
into a readable value based on the physical type.  Sized integer/float arms
fire only on an exact length match; `BYTE_ARRAY`/`FIXED_LEN_BYTE_ARRAY`
attempt UTF-8 and fall back to uppercase hex; everything else (including any
length mismatch, `BOOLEAN` and `INT96`) renders as uppercase hex. -/
def decode_value (bytes : List Byte) (physical : PhysicalType) : String :=
  if physical = .INT32 ∧ bytes.length = 4 then
    toString (toSigned 32 (leNat bytes))
  else if physical = .INT64 ∧ bytes.length = 8 then
    toString (toSigned 64 (leNat bytes))
  else if physical = .FLOAT ∧ bytes.length = 4 then
    formatF32 bytes 4
  else if physical = .DOUBLE ∧ bytes.length = 8 then
    formatF64 bytes 4
  else if physical = .BYTE_ARRAY ∨ physical = .FIXED_LEN_BYTE_ARRAY then
    match utf8Decode bytes with
    | some s => s
    | none => hexConcat bytes
  else
    hexConcat bytes

/-- Rust lexicographic comparison `a < b` on `&[u8]` slices: element-wise on
bytes, with a strict prefix comparing smaller. -/
def lexLt : List Byte → List Byte → Bool
  | [], [] => false
  | [], _ :: _ => true
  | _ :: _, [] => false
  | a :: as, b :: bs =>
    if a.val < b.val then true
    else if b.val < a.val then false
    else lexLt as bs

/-- Optional per-column-chunk statistics carried by the Parquet footer
(`parquet::file::statistics::Statistics`, as consumed through
`null_count_opt`, `distinct_count_opt`, `min_bytes_opt`, `max_bytes_opt`).
Counts are `u64` values. -/
structure Statistics where
  nullCountOpt : Option Nat
  distinctCountOpt : Option Nat
  minBytesOpt : Option (List Byte)
  maxBytesOpt : Option (List Byte)
  deriving Repr, DecidableEq, Inhabited

/-- Per-column-chunk footer metadata as consumed by the engine:
`compression()` and `encodings()` are kept as their `format!("{:?}", _)`
renderings, sizes are the `i64` values returned by `compressed_size()` /
`uncompressed_size()`. -/
structure ColumnChunkMetaData where
  compression : String
  encodings : List String
  statistics : Option Statistics
  compressedSize : Int
  uncompressedSize : Int
  deriving Repr, DecidableEq, Inhabited

/-- One row group's metadata: one column chunk per leaf column, in column
order. -/
structure RowGroupMetaData where
  columns : List ColumnChunkMetaData
  deriving Repr, DecidableEq, Inhabited

/-- Accessor `rg.column(i)` (panics when out of bounds in Rust; modelled with a
default chunk — theorems about real metadata only use in-bounds indices). -/
def RowGroupMetaData.column (rg : RowGroupMetaData) (i : Nat) : ColumnChunkMetaData :=
  rg.columns.getD i default

/-- Rust `i64 as u64`: two's-complement reinterpretation. -/
def i64AsU64 (x : Int) : Nat :=
  (Int.emod x (2 ^ 64)).toNat

/-- Wrapping `u64` addition (release-mode Rust `+=`). -/
def u64Add (a b : Nat) : Nat :=
  (a + b) % 2 ^ 64

/-- Struct `ColumnStats` from `src/file/schema.rs`. -/
structure ColumnStats where
  min : Option String
  max : Option String
  nulls : Nat
  distinct : Option Nat
  total_compressed_size : Nat
  total_uncompressed_size : Nat
  deriving Repr, DecidableEq

/-- The accumulator tuple of the fold in `aggregate_column_stats`:
`(min_bytes, max_bytes, nulls, distinct, compressed, uncompressed)`. -/
abbrev StatsAcc :=
  Option (List Byte) × Option (List Byte) × Nat × Option Nat × Nat × Nat

/-- One step of the `aggregate_column_stats` fold over row groups. -/
def statsStep (colIdx : Nat) (acc : StatsAcc) (rg : RowGroupMetaData) : StatsAcc :=
  let (minBytes, maxBytes, nulls, distinct, compressed, uncompressed) := acc
  let colMeta := rg.column colIdx
  let (minBytes, maxBytes, nulls, distinct) :=
    match colMeta.statistics with
    | some stats =>
      let nulls := u64Add nulls (stats.nullCountOpt.getD 0)
      let distinct := some (u64Add (distinct.getD 0) (stats.distinctCountOpt.getD 0))
      let minBytes :=
        match stats.minBytesOpt with
        | some minB =>
          if (match minBytes with | none => true | some mb => lexLt minB mb) then
            some minB
          else minBytes
        | none => minBytes
      let maxBytes :=
        match stats.maxBytesOpt with
        | some maxB =>
          if (match maxBytes with | none => true | some mb => lexLt mb maxB) then
            some maxB
          else maxBytes
        | none => maxBytes
      (minBytes, maxBytes, nulls, distinct)
    | none => (minBytes, maxBytes, nulls, distinct)
  let compressed := u64Add compressed (i64AsU64 colMeta.compressedSize)
  let uncompressed := u64Add uncompressed (i64AsU64 colMeta.uncompressedSize)
  (minBytes, maxBytes, nulls, distinct, compressed, uncompressed)

/-- Function `aggregate_column_stats` from `src/file/schema.rs`, applied to the row
group list of the footer metadata: fold null/distinct counts, raw min/max
bytes and sizes across row groups, then decode the final min/max bytes with
the column's physical type. -/
def aggregate_column_stats (rowGroups : List RowGroupMetaData) (colIdx : Nat)
    (physical : PhysicalType) : ColumnStats :=
  let (minBytes, maxBytes, nulls, distinct, totalCompressed, totalUncompressed) :=
    rowGroups.foldl (statsStep colIdx) (none, none, 0, none, 0, 0)
  { min := minBytes.map (fun b => decode_value b physical)
    max := maxBytes.map (fun b => decode_value b physical)
    nulls
    distinct
    total_compressed_size := totalCompressed
    total_uncompressed_size := totalUncompressed }

/-! ### Model of the chrono timestamp rendering used for INT96 values

`extract_dictionary_values` renders INT96 timestamps through
`chrono::DateTime::from_timestamp` and `format("%Y-%m-%d %H:%M:%S%.9f UTC")`.
chrono is an external crate; the following definitions model its documented
behavior: the proleptic-Gregorian civil-date conversion and the validity
range of `from_timestamp` (dates from `-262143-01-01` to `262142-12-31`,
sub-second part below two billion nanoseconds). -/

/-- Wrapping reinterpretation of an integer as `i64` (release-mode Rust
overflow semantics). -/
def wrapI64 (x : Int) : Int :=
  (x + 2 ^ 63).emod (2 ^ 64) - 2 ^ 63

/-- Days since 1970-01-01 to proleptic-Gregorian `(year, month, day)`
(standard civil-from-days algorithm, as used by chrono). -/
def civilFromDays (days : Int) : Int × Nat × Nat :=
  let z := days + 719468
  let era : Int := Int.fdiv z 146097
  let doe : Nat := (z - era * 146097).toNat
  let yoe : Nat := (doe - doe / 1460 + doe / 36524 - doe / 146096) / 365
  let y : Int := (yoe : Int) + era * 400
  let doy : Nat := doe - (365 * yoe + yoe / 4 - yoe / 100)
  let mp : Nat := (5 * doy + 2) / 153
  let d : Nat := doy - (153 * mp + 2) / 5 + 1
  let m : Nat := if mp < 10 then mp + 3 else mp - 9
  (if m ≤ 2 then y + 1 else y, m, d)

/-- Proleptic-Gregorian `(year, month, day)` to days since 1970-01-01
(inverse of `civilFromDays`). -/
def daysFromCivil (y : Int) (m d : Nat) : Int :=
  let y1 := if m ≤ 2 then y - 1 else y
  let era : Int := Int.fdiv y1 400
  let yoe : Nat := (y1 - era * 400).toNat
  let mp : Nat := if 2 < m then m - 3 else m + 9
  let doy : Nat := (153 * mp + 2) / 5 + d - 1
  let doe : Nat := yoe * 365 + yoe / 4 - yoe / 100 + doy
  era * 146097 + (doe : Int) - 719468

/-- Smallest Unix second representable by chrono (`-262143-01-01 00:00:00`). -/
def chronoMinSecs : Int := daysFromCivil (-262143) 1 1 * 86400

/-- Largest Unix second representable by chrono (`262142-12-31 23:59:59`). -/
def chronoMaxSecs : Int := daysFromCivil 262142 12 31 * 86400 + 86399

/-- Predicate for `chrono::DateTime::from_timestamp(secs, nsecs).is_some()`: the seconds
must fall in chrono's representable range and the nanosecond part below two
billion. -/
def chronoTimestampValid (secs : Int) (nsecs : Nat) : Bool :=
  nsecs < 2000000000 ∧ chronoMinSecs ≤ secs ∧ secs ≤ chronoMaxSecs

/-- chrono's `%Y`: years `0..=9999` zero-padded to four digits, years
outside that range rendered with an explicit sign. -/
def formatYear (y : Int) : String :=
  if y < 0 then "-" ++ padZeros 4 (toString (-y))
  else if y ≤ 9999 then padZeros 4 (toString y)
  else "+" ++ toString y

/-- Rendering `datetime.format("%Y-%m-%d %H:%M:%S%.9f UTC")` for the UTC datetime
built by `from_timestamp(secs, nsecs)`.  (Leap-second inputs, `nsecs ≥ 10^9`,
cannot arise from the INT96 call site: a negative nanosecond remainder cast
to `u32` always exceeds `2·10^9` and fails validation instead.) -/
def formatChronoTimestamp (secs : Int) (nsecs : Nat) : String :=
  let days := Int.fdiv secs 86400
  let sod : Nat := (secs - days * 86400).toNat
  let (y, m, d) := civilFromDays days
  formatYear y ++ "-" ++ padZeros 2 (toString m) ++ "-" ++ padZeros 2 (toString d) ++
    " " ++ padZeros 2 (toString (sod / 3600)) ++ ":" ++
    padZeros 2 (toString (sod % 3600 / 60)) ++ ":" ++ padZeros 2 (toString (sod % 60)) ++
    "." ++ padZeros 9 (toString nsecs) ++ " UTC"

/-- The `nanos` read of one INT96 record: first 8 bytes as LE `u64`. -/
def int96Nanos (record : List Byte) : Nat :=
  leNat (record.take 8)

/-- The `julian_day` read of one INT96 record: last 4 bytes as LE `u32`. -/
def int96JulianDay (record : List Byte) : Nat :=
  leNat ((record.drop 8).take 4)

/-- Value `total_nanos` of the INT96 arm:
`(julian_day - 2440588) * 24 * 60 * 60 * 1_000_000_000 + nanos as i64`,
with the two potentially overflowing `i64` operations wrapping. -/
def int96TotalNanos (record : List Byte) : Int :=
  wrapI64 (wrapI64 (((int96JulianDay record : Int) - 2440588) * 24 * 60 * 60 * 1000000000) +
    toSigned 64 (int96Nanos record))

/-- Value `timestamp_secs = total_nanos / 1_000_000_000` (Rust `i64` division
truncates toward zero). -/
def int96TimestampSecs (record : List Byte) : Int :=
  Int.tdiv (int96TotalNanos record) 1000000000

/-- Value `timestamp_nanos as u32`, where
`timestamp_nanos = total_nanos % 1_000_000_000` (Rust remainder takes the
dividend's sign, then the `u32` cast wraps modulo `2^32`). -/
def int96NsecsU32 (record : List Byte) : Nat :=
  (Int.emod (Int.tmod (int96TotalNanos record) 1000000000) (2 ^ 32)).toNat

/-- The INT96 arm of `extract_dictionary_values` (src/dictionary.rs), applied
to one 12-byte record: nanoseconds from the first 8 bytes (LE `u64`), Julian
day from the last 4 (LE `u32`); convert via Julian day 2440588 = 1970-01-01;
`i64` arithmetic wraps; on a chrono-representable timestamp render
`"%Y-%m-%d %H:%M:%S%.9f UTC"`, otherwise fall back to the raw pair. -/
def int96ValueString (record : List Byte) : String :=
  if chronoTimestampValid (int96TimestampSecs record) (int96NsecsU32 record) then
    formatChronoTimestamp (int96TimestampSecs record) (int96NsecsU32 record)
  else
    "INT96(nanos=" ++ toString (int96Nanos record) ++
      ", julian_day=" ++ toString (int96JulianDay record) ++ ")"

/-! ### `extract_dictionary_values` (src/dictionary.rs)

The external page reader is modelled per row group as a list of fetch
results: `get_next_page()` yields the next `Except` entry (`.error` models
`Err(_)`, which the `?` operator propagates), and the end of the list models
`Ok(None)`.  `reader.get_row_group(..)` / `get_column_page_reader(..)` can
also fail, so a row group stream is itself an `Except`. -/

/-- Enum `parquet::basic::PageType` as observed by the scan. -/
inductive PageType where
  | DATA_PAGE
  | INDEX_PAGE
  | DICTIONARY_PAGE
  | DATA_PAGE_V2
  deriving DecidableEq, Repr, Inhabited

/-- One page as exposed by the page reader: its type tag, payload buffer and
`num_values()` count. -/
structure Page where
  pageType : PageType
  buffer : List Byte
  numValues : Nat
  deriving Repr, DecidableEq, Inhabited

/-- A page stream for one (row group, column) pair. -/
abbrev PageStream := List (Except String Page)

/-- The value pushed for one BYTE_ARRAY record whose 4-byte LE length
header sits at `off`: the UTF-8 string, or a `0x…` preview of the first
eight payload bytes when the payload is not valid UTF-8. -/
def byteArrayRecordString (buf : List Byte) (off : Nat) : String :=
  let stringData := (buf.drop (off + 4)).take (leNat ((buf.drop off).take 4))
  match utf8Decode stringData with
  | some s => s
  | none => "0x" ++ hexConcat (stringData.take 8)

/-- The BYTE_ARRAY PLAIN loop of `extract_dictionary_values`: repeatedly
read a 4-byte LE length header then that many payload bytes; stop at buffer
truncation; push the record's string (`byteArrayRecordString`); stop once
`max_items` values are collected.  `fuel` is the source's loop bound
`num_values.min(max_items)`; `offset + 4 + length` is the source's `offset`
after its two `offset +=` updates. -/
def byteArrayLoop (buf : List Byte) (maxItems : Nat) :
    Nat → Nat → List String → List String
  | 0, _, acc => acc
  | fuel + 1, offset, acc =>
    if offset + 4 > buf.length then acc
    else
      let length := leNat ((buf.drop offset).take 4)
      if offset + 4 + length > buf.length then acc
      else
        let acc := acc ++ [byteArrayRecordString buf offset]
        if maxItems ≤ acc.length then acc
        else byteArrayLoop buf maxItems fuel (offset + 4 + length) acc

/-- One record of a fixed-stride dictionary page, decoded per physical type
(INT32/INT64 signed LE, FLOAT/DOUBLE with `{:.6}`, INT96 via
`int96ValueString`). -/
def fixedRecordString (physical : PhysicalType) (record : List Byte) : String :=
  match physical with
  | .INT32 => toString (toSigned 32 (leNat record))
  | .INT64 => toString (toSigned 64 (leNat record))
  | .FLOAT => formatF32 record 6
  | .DOUBLE => formatF64 record 6
  | _ => int96ValueString record

/-- The fixed-stride width used by `extract_dictionary_values` for a
physical type with a dedicated fixed-width arm. -/
def strideOf (physical : PhysicalType) : Nat :=
  match physical with
  | .INT32 | .FLOAT => 4
  | .INT64 | .DOUBLE => 8
  | _ => 12

/-- The fixed-stride arms of `extract_dictionary_values`: decode
`max_vals = (buffer.len() / stride).min(num_values).min(max_items)` records
at offsets `i * stride` (each guarded by an always-true bounds check). -/
def fixedStrideValues (physical : PhysicalType) (buf : List Byte)
    (numValues maxItems : Nat) : List String :=
  let stride := strideOf physical
  let maxVals := min (min (buf.length / stride) numValues) maxItems
  (List.range maxVals).filterMap fun i =>
    let offset := i * stride
    if offset + stride ≤ buf.length then
      some (fixedRecordString physical ((buf.drop offset).take stride))
    else none

/-- Processing of one dictionary page by `extract_dictionary_values`:
dispatch on the physical type; unknown types push a single
`"Binary(…): …"` hex preview of the first 32 bytes (space-separated). -/
def processDictPage (physical : PhysicalType) (maxItems : Nat)
    (acc : List String) (page : Page) : List String :=
  match physical with
  | .BYTE_ARRAY =>
    byteArrayLoop page.buffer maxItems (min page.numValues maxItems) 0 acc
  | .INT32 | .INT64 | .INT96 | .FLOAT | .DOUBLE =>
    acc ++ fixedStrideValues physical page.buffer page.numValues maxItems
  | _ =>
    let hexPreview := String.intercalate " " ((page.buffer.take 32).map byteHex)
    acc ++ ["Binary(" ++ physical.display ++ "): " ++ hexPreview]

/-- The inner `while let Some(page) = page_reader.get_next_page()?` loop:
non-dictionary pages are skipped; after a dictionary page the loop breaks
once `max_items` values are collected; a stream error propagates. -/
def readPages (physical : PhysicalType) (maxItems : Nat) :
    PageStream → List String → Except String (List String)
  | [], acc => .ok acc
  | .error e :: _, _ => .error e
  | .ok page :: rest, acc =>
    if page.pageType = .DICTIONARY_PAGE then
      let acc := processDictPage physical maxItems acc page
      if maxItems ≤ acc.length then .ok acc
      else readPages physical maxItems rest acc
    else readPages physical maxItems rest acc

/-- The outer row-group loop of `extract_dictionary_values`. -/
def rowGroupLoop (physical : PhysicalType) (maxItems : Nat) :
    List (Except String PageStream) → List String → Except String (List String)
  | [], acc => .ok acc
  | .error e :: _, _ => .error e
  | .ok pages :: rest, acc =>
    match readPages physical maxItems pages acc with
    | .error e => .error e
    | .ok acc =>
      if maxItems ≤ acc.length then .ok acc
      else rowGroupLoop physical maxItems rest acc

/-- Function `extract_dictionary_values` from `src/dictionary.rs`: scan every row
group's page stream for the target column, decode each dictionary page
according to the column's physical type, and stop once `max_items` values
are collected.  Stream errors propagate through `?`. -/
def extract_dictionary_values (streams : List (Except String PageStream))
    (physical : PhysicalType) (maxItems : Nat) : Except String (List String) :=
  rowGroupLoop physical maxItems streams []

/-! ### `FileSchema::from_metadata` and `traverse` (src/file/schema.rs) -/

/-- Enum `parquet::basic::TimeUnit`. -/
inductive TimeUnit where
  | MILLIS
  | MICROS
  | NANOS
  deriving DecidableEq, Repr

/-- Enum `parquet::basic::LogicalType`, restricted to the variants
`logical_type_to_string` matches on; every remaining variant is carried as
its `format!("{:?}", _)` rendering, which is all the catch-all arm uses. -/
inductive LogicalType where
  | Decimal (scale precision : Int)
  | Integer (bitWidth : Int) (isSigned : Bool)
  | Time (isAdjustedToUTC : Bool) (unit : TimeUnit)
  | Timestamp (isAdjustedToUTC : Bool) (unit : TimeUnit)
  | other (debugRepr : String)
  deriving DecidableEq, Repr

/-- Function `logical_type_to_string` from `src/file/schema.rs`. -/
def logical_type_to_string (lt : LogicalType) : String :=
  match lt with
  | .Decimal scale precision =>
    "Decimal(" ++ toString scale ++ "," ++ toString precision ++ ")"
  | .Integer bitWidth isSigned =>
    "Integer(" ++ toString bitWidth ++ "," ++ (if isSigned then "sign" else "unsign") ++ ")"
  | .Time isUtc unit =>
    let u := match unit with
      | .MILLIS => "millis"
      | .MICROS => "micros"
      | .NANOS => "nanos"
    "Time(" ++ (if isUtc then "utc" else "local") ++ ", " ++ u ++ ")"
  | .Timestamp isUtc unit =>
    let u := match unit with
      | .MILLIS => "millis"
      | .MICROS => "micros"
      | .NANOS => "nanos"
    "Timestamp(" ++ (if isUtc then "utc" else "local") ++ ", " ++ u ++ ")"
  | .other debugRepr => debugRepr

/-- Type `parquet::schema::types::Type`: the nested schema description.
`repetition` and `converted_type` are carried as their rendered strings
(`format!("{:?}", _)` / `.to_string()`), which is how `traverse` consumes
them. -/
inductive ParquetType where
  | primitive (name : String) (repetition : String) (logical : Option LogicalType)
      (converted : String) (physical : PhysicalType)
  | group (name : String) (repetition : String) (fields : List ParquetType)

/-- Accessor `node.name()`. -/
def ParquetType.name : ParquetType → String
  | .primitive n _ _ _ _ => n
  | .group n _ _ => n

/-- Struct `ColumnSchemaInfo` from `src/file/schema.rs`. -/
structure ColumnSchemaInfo where
  name : String
  repetition : String
  physical : String
  logical : String
  codec : String
  converted_type : String
  encoding : String
  dictionary_values : Option (List String)
  deriving DecidableEq, Repr

/-- Enum `SchemaInfo` from `src/file/schema.rs`. -/
inductive SchemaInfo where
  | Root (name display : String)
  | Primitive (name display : String) (info : ColumnSchemaInfo) (stats : ColumnStats)
  | Group (name display repetition : String)
  deriving DecidableEq, Repr

/-- Struct `FileSchema` from `src/file/schema.rs`. -/
structure FileSchema where
  columns : List SchemaInfo
  deriving DecidableEq, Repr

/-- The parsed footer metadata consumed by `from_metadata`: the row-group
list and the fields of the root schema group. -/
structure ParquetMetaData where
  rowGroups : List RowGroupMetaData
  rootFields : List ParquetType

mutual

/-- Number of leaf (primitive) columns below one schema node
(`schema_descr.columns()` lists exactly these, in order). -/
def ParquetType.leafCount : ParquetType → Nat
  | .primitive _ _ _ _ _ => 1
  | .group _ _ fields => leafCountList fields

/-- Number of leaf columns below a list of schema nodes. -/
def leafCountList : List ParquetType → Nat
  | [] => 0
  | t :: ts => t.leafCount + leafCountList ts

end

/-- Count `schema_descr.columns().len()` for the modelled metadata. -/
def ParquetMetaData.numColumns (md : ParquetMetaData) : Nat :=
  leafCountList md.rootFields

/-- The codec tags inserted into the `HashSet` for one column, in row-group
order: `format!("{:?}", rg.column(col_idx).compression())`. -/
def columnCodecTags (rowGroups : List RowGroupMetaData) (colIdx : Nat) : List String :=
  rowGroups.map fun rg => (rg.column colIdx).compression

/-- The encoding tags inserted into the `HashSet` for one column, in
row-group order (`encs.extend(col_chunk.encodings() …)`). -/
def columnEncodingTags (rowGroups : List RowGroupMetaData) (colIdx : Nat) : List String :=
  rowGroups.flatMap fun rg => (rg.column colIdx).encodings

/-- A model of `HashSet<String>` iteration (`into_iter().collect::<Vec<_>>()`
after inserting a list of tags): any function producing the set's elements
in some duplicate-free order.  The std `HashSet` iteration order is
unspecified (randomly seeded), so `from_metadata` is parametrised by it. -/
def IsSetEnum (setEnum : List String → List String) : Prop :=
  ∀ l : List String, (setEnum l).Nodup ∧ ∀ s, s ∈ setEnum l ↔ s ∈ l

/-- The per-leaf-column `(codec_summary, encoding_summary)` list computed by
the first loop of `from_metadata`: distinct tags observed across row groups,
enumerated by the hash-set model and joined with `", "`. -/
def columnSummaries (setEnum : List String → List String)
    (md : ParquetMetaData) : List (String × String) :=
  (List.range md.numColumns).map fun colIdx =>
    (String.intercalate ", " (setEnum (columnCodecTags md.rowGroups colIdx)),
     String.intercalate ", " (setEnum (columnEncodingTags md.rowGroups colIdx)))

mutual

/-- Function `traverse` from `src/file/schema.rs`: recursive descent appending one
`SchemaInfo` per node to `lines`; at a primitive node attach the `leaf_idx`-th
codec/encoding summary and the aggregated statistics, then advance
`leaf_idx`.  (`summaries[*leaf_idx]` is in bounds for metadata whose summary
list covers every leaf; the model reads it with a `("", "")` default.) -/
def traverse (summaries : List (String × String)) (rowGroups : List RowGroupMetaData)
    (node : ParquetType) (pref : String) (isLast : Bool)
    (lines : List SchemaInfo) (leafIdx : Nat) : List SchemaInfo × Nat :=
  let connector := if isLast then "└─" else "├─"
  let line := pref ++ connector ++ " " ++ node.name
  match node with
  | .primitive name repetition logical converted physical =>
    let logicalS :=
      match logical with
      | some lt => logical_type_to_string lt
      | none => ""
    let summary := summaries.getD leafIdx ("", "")
    let stats := aggregate_column_stats rowGroups leafIdx physical
    let info : ColumnSchemaInfo :=
      { name := name
        repetition := repetition
        physical := physical.display
        logical := logicalS
        codec := summary.1
        encoding := summary.2
        converted_type := converted
        dictionary_values := none }
    (lines ++ [SchemaInfo.Primitive name line info stats], leafIdx + 1)
  | .group name repetition fields =>
    let lines := lines ++ [SchemaInfo.Group name line repetition]
    let nextPrefix := pref ++ (if isLast then "   " else "│  ")
    traverseChildren summaries rowGroups fields 0 fields.length nextPrefix lines leafIdx

/-- The `for (idx, child) in fields.iter().enumerate()` recursion inside
`traverse` (and the identical top-level loop of `from_metadata`). -/
def traverseChildren (summaries : List (String × String)) (rowGroups : List RowGroupMetaData)
    (fields : List ParquetType) (idx count : Nat) (pref : String)
    (lines : List SchemaInfo) (leafIdx : Nat) : List SchemaInfo × Nat :=
  match fields with
  | [] => (lines, leafIdx)
  | child :: rest =>
    let (lines, leafIdx) :=
      traverse summaries rowGroups child pref (idx = count - 1) lines leafIdx
    traverseChildren summaries rowGroups rest (idx + 1) count pref lines leafIdx

end

/-- Function `FileSchema::from_metadata` from `src/file/schema.rs` (the source
signature returns `Result` but every path returns `Ok`): pre-compute the
per-column codec/encoding summaries, push the `Root` line, then traverse the
root's fields. -/
def FileSchema.from_metadata (setEnum : List String → List String)
    (md : ParquetMetaData) : FileSchema :=
  let summaries := columnSummaries setEnum md
  let lines : List SchemaInfo := [SchemaInfo.Root "root" "└─ root"]
  let (lines, _) :=
    traverseChildren summaries md.rowGroups md.rootFields 0 md.rootFields.length
      "   " lines 0
  { columns := lines }

/-- Method `FileSchema::column_size`: the number of `Primitive` entries. -/
def FileSchema.column_size (fs : FileSchema) : Nat :=
  (fs.columns.filter fun c =>
    match c with
    | .Primitive _ _ _ _ => true
    | _ => false).length

/-! ### Characterizing the `aggregate_column_stats` fold -/

/-- The min-bytes update a single row group applies inside
`aggregate_column_stats`. -/
def minUpdate (cm : ColumnChunkMetaData) (acc : Option (List Byte)) : Option (List Byte) :=
  match cm.statistics with
  | some stats =>
    match stats.minBytesOpt with
    | some b =>
      if (match acc with | none => true | some mb => lexLt b mb) then some b else acc
    | none => acc
  | none => acc

/-- The max-bytes update a single row group applies inside
`aggregate_column_stats`. -/
def maxUpdate (cm : ColumnChunkMetaData) (acc : Option (List Byte)) : Option (List Byte) :=
  match cm.statistics with
  | some stats =>
    match stats.maxBytesOpt with
    | some b =>
      if (match acc with | none => true | some mb => lexLt mb b) then some b else acc
    | none => acc
  | none => acc

/-- The null-count update a single row group applies inside
`aggregate_column_stats`. -/
def nullsUpdate (cm : ColumnChunkMetaData) (n : Nat) : Nat :=
  match cm.statistics with
  | some stats => u64Add n (stats.nullCountOpt.getD 0)
  | none => n

/-- The distinct-count update a single row group applies inside
`aggregate_column_stats`. -/
def distinctUpdate (cm : ColumnChunkMetaData) (d : Option Nat) : Option Nat :=
  match cm.statistics with
  | some stats => some (u64Add (d.getD 0) (stats.distinctCountOpt.getD 0))
  | none => d

theorem statsStep_eq (i : Nat) (rg : RowGroupMetaData) (m M : Option (List Byte))
    (n : Nat) (d : Option Nat) (c u : Nat) :
    statsStep i (m, M, n, d, c, u) rg =
      (minUpdate (rg.column i) m, maxUpdate (rg.column i) M,
       nullsUpdate (rg.column i) n, distinctUpdate (rg.column i) d,
       u64Add c (i64AsU64 (rg.column i).compressedSize),
       u64Add u (i64AsU64 (rg.column i).uncompressedSize)) := by
  cases h : (rg.column i).statistics with
  | none =>
    simp [statsStep, minUpdate, maxUpdate, nullsUpdate, distinctUpdate, h]
  | some stats =>
    cases hb : stats.minBytesOpt <;> cases hB : stats.maxBytesOpt <;>
      simp [statsStep, minUpdate, maxUpdate, nullsUpdate, distinctUpdate, h, hb, hB]

theorem statsFold_eq (i : Nat) (rgs : List RowGroupMetaData) :
    ∀ (m M : Option (List Byte)) (n : Nat) (d : Option Nat) (c u : Nat),
    rgs.foldl (statsStep i) (m, M, n, d, c, u) =
      (rgs.foldl (fun a rg => minUpdate (rg.column i) a) m,
       rgs.foldl (fun a rg => maxUpdate (rg.column i) a) M,
       rgs.foldl (fun a rg => nullsUpdate (rg.column i) a) n,
       rgs.foldl (fun a rg => distinctUpdate (rg.column i) a) d,
       rgs.foldl (fun a rg => u64Add a (i64AsU64 (rg.column i).compressedSize)) c,
       rgs.foldl (fun a rg => u64Add a (i64AsU64 (rg.column i).uncompressedSize)) u) := by
  induction rgs with
  | nil => intros; rfl
  | cons rg rest ih =>
    intro m M n d c u
    simp only [List.foldl_cons, statsStep_eq]
    exact ih _ _ _ _ _ _

/-- The min-bytes values supplied by chunks with statistics, in row-group
order. -/
def minBytesCandidates (rowGroups : List RowGroupMetaData) (colIdx : Nat) : List (List Byte) :=
  rowGroups.filterMap fun rg => ((rg.column colIdx).statistics).bind fun st => st.minBytesOpt

/-- The max-bytes values supplied by chunks with statistics, in row-group
order. -/
def maxBytesCandidates (rowGroups : List RowGroupMetaData) (colIdx : Nat) : List (List Byte) :=
  rowGroups.filterMap fun rg => ((rg.column colIdx).statistics).bind fun st => st.maxBytesOpt

/-- Spec-side running minimum over candidate byte strings: start empty and
replace the current extreme only by a candidate that compares strictly
smaller in lexicographic byte order. -/
def lexRunningMin (cands : List (List Byte)) : Option (List Byte) :=
  cands.foldl
    (fun acc b =>
      match acc with
      | none => some b
      | some m => if lexLt b m then some b else some m)
    none

/-- Spec-side running maximum over candidate byte strings: replace the
current extreme only by a candidate that compares strictly greater in
lexicographic byte order. -/
def lexRunningMax (cands : List (List Byte)) : Option (List Byte) :=
  cands.foldl
    (fun acc b =>
      match acc with
      | none => some b
      | some m => if lexLt m b then some b else some m)
    none

theorem foldMin_eq_candidates (i : Nat) (rgs : List RowGroupMetaData) :
    ∀ acc : Option (List Byte),
    rgs.foldl (fun a rg => minUpdate (rg.column i) a) acc =
      (minBytesCandidates rgs i).foldl
        (fun a b =>
          match a with
          | none => some b
          | some m => if lexLt b m then some b else some m)
        acc := by
  induction rgs with
  | nil => intro acc; simp [minBytesCandidates]
  | cons rg rest ih =>
    intro acc
    cases h : (rg.column i).statistics with
    | none =>
      simp only [List.foldl_cons, minBytesCandidates, List.filterMap_cons, h,
        Option.none_bind]
      have hupd : minUpdate (rg.column i) acc = acc := by simp [minUpdate, h]
      rw [hupd]; exact ih acc
    | some stats =>
      cases hb : stats.minBytesOpt with
      | none =>
        simp only [List.foldl_cons, minBytesCandidates, List.filterMap_cons, h,
          Option.some_bind, hb]
        have hupd : minUpdate (rg.column i) acc = acc := by simp [minUpdate, h, hb]
        rw [hupd]; exact ih acc
      | some b =>
        simp only [List.foldl_cons, minBytesCandidates, List.filterMap_cons, h,
          Option.some_bind, hb]
        have hupd : minUpdate (rg.column i) acc =
            (match acc with
             | none => some b
             | some m => if lexLt b m then some b else some m) := by
          cases acc with
          | none => simp [minUpdate, h, hb]
          | some mb =>
            by_cases hlt : lexLt b mb = true <;> simp [minUpdate, h, hb, hlt]
        rw [hupd]; exact ih _

theorem foldMax_eq_candidates (i : Nat) (rgs : List RowGroupMetaData) :
    ∀ acc : Option (List Byte),
    rgs.foldl (fun a rg => maxUpdate (rg.column i) a) acc =
      (maxBytesCandidates rgs i).foldl
        (fun a b =>
          match a with
          | none => some b
          | some m => if lexLt m b then some b else some m)
        acc := by
  induction rgs with
  | nil => intro acc; simp [maxBytesCandidates]
  | cons rg rest ih =>
    intro acc
    cases h : (rg.column i).statistics with
    | none =>
      simp only [List.foldl_cons, maxBytesCandidates, List.filterMap_cons, h,
        Option.none_bind]
      have hupd : maxUpdate (rg.column i) acc = acc := by simp [maxUpdate, h]
      rw [hupd]; exact ih acc
    | some stats =>
      cases hb : stats.maxBytesOpt with
      | none =>
        simp only [List.foldl_cons, maxBytesCandidates, List.filterMap_cons, h,
          Option.some_bind, hb]
        have hupd : maxUpdate (rg.column i) acc = acc := by simp [maxUpdate, h, hb]
        rw [hupd]; exact ih acc
      | some b =>
        simp only [List.foldl_cons, maxBytesCandidates, List.filterMap_cons, h,
          Option.some_bind, hb]
        have hupd : maxUpdate (rg.column i) acc =
            (match acc with
             | none => some b
             | some m => if lexLt m b then some b else some m) := by
          cases acc with
          | none => simp [maxUpdate, h, hb]
          | some mb =>
            by_cases hlt : lexLt mb b = true <;> simp [maxUpdate, h, hb, hlt]
        rw [hupd]; exact ih _

theorem foldU64Add_eq {α : Type} (f : α → Nat) (l : List α) : ∀ c : Nat, c < 2 ^ 64 →
    l.foldl (fun a x => u64Add a (f x)) c = (c + (l.map f).sum) % 2 ^ 64 := by
  induction l with
  | nil => intro c hc; simp; omega
  | cons x rest ih =>
    intro c hc
    have hlt : u64Add c (f x) < 2 ^ 64 := by unfold u64Add; exact Nat.mod_lt _ (by norm_num)
    rw [List.foldl_cons, ih _ hlt]
    simp only [u64Add, List.map_cons, List.sum_cons]
    omega

/-- Whether any row group's chunk for this column carries statistics. -/
def anyChunkStats (rowGroups : List RowGroupMetaData) (colIdx : Nat) : Bool :=
  rowGroups.any fun rg => (rg.column colIdx).statistics.isSome

/-- Per-chunk distinct-count contributions: one entry per chunk carrying
statistics, an absent distinct count contributing `0`. -/
def distinctContribs (rowGroups : List RowGroupMetaData) (colIdx : Nat) : List Nat :=
  rowGroups.filterMap fun rg =>
    ((rg.column colIdx).statistics).map fun st => st.distinctCountOpt.getD 0

/-- Per-chunk null-count contributions: one entry per chunk carrying
statistics, an absent null count contributing `0`. -/
def nullContribs (rowGroups : List RowGroupMetaData) (colIdx : Nat) : List Nat :=
  rowGroups.filterMap fun rg =>
    ((rg.column colIdx).statistics).map fun st => st.nullCountOpt.getD 0

theorem foldNulls_eq (i : Nat) (rgs : List RowGroupMetaData) : ∀ n : Nat, n < 2 ^ 64 →
    rgs.foldl (fun a rg => nullsUpdate (rg.column i) a) n =
      (n + (nullContribs rgs i).sum) % 2 ^ 64 := by
  induction rgs with
  | nil => intro n hn; simp [nullContribs]; omega
  | cons rg rest ih =>
    intro n hn
    cases h : (rg.column i).statistics with
    | none =>
      have hcons : nullContribs (rg :: rest) i = nullContribs rest i := by
        simp [nullContribs, List.filterMap_cons, h]
      have hupd : nullsUpdate (rg.column i) n = n := by simp [nullsUpdate, h]
      rw [List.foldl_cons, hupd, hcons, ih n hn]
    | some stats =>
      have hcons : nullContribs (rg :: rest) i =
          stats.nullCountOpt.getD 0 :: nullContribs rest i := by
        simp [nullContribs, List.filterMap_cons, h]
      have hupd : nullsUpdate (rg.column i) n = u64Add n (stats.nullCountOpt.getD 0) := by
        simp [nullsUpdate, h]
      have hlt : u64Add n (stats.nullCountOpt.getD 0) < 2 ^ 64 := by
        unfold u64Add; exact Nat.mod_lt _ (by norm_num)
      rw [List.foldl_cons, hupd, hcons, ih _ hlt]
      simp only [u64Add, List.sum_cons]
      omega

theorem foldDistinct_some (i : Nat) (rgs : List RowGroupMetaData) : ∀ k : Nat, k < 2 ^ 64 →
    rgs.foldl (fun a rg => distinctUpdate (rg.column i) a) (some k) =
      some ((k + (distinctContribs rgs i).sum) % 2 ^ 64) := by
  induction rgs with
  | nil => intro k hk; simp [distinctContribs]; omega
  | cons rg rest ih =>
    intro k hk
    cases h : (rg.column i).statistics with
    | none =>
      have hcons : distinctContribs (rg :: rest) i = distinctContribs rest i := by
        simp [distinctContribs, List.filterMap_cons, h]
      have hupd : distinctUpdate (rg.column i) (some k) = some k := by
        simp [distinctUpdate, h]
      rw [List.foldl_cons, hupd, hcons, ih k hk]
    | some stats =>
      have hcons : distinctContribs (rg :: rest) i =
          stats.distinctCountOpt.getD 0 :: distinctContribs rest i := by
        simp [distinctContribs, List.filterMap_cons, h]
      have hupd : distinctUpdate (rg.column i) (some k) =
          some (u64Add k (stats.distinctCountOpt.getD 0)) := by
        simp [distinctUpdate, h]
      have hlt : u64Add k (stats.distinctCountOpt.getD 0) < 2 ^ 64 := by
        unfold u64Add; exact Nat.mod_lt _ (by norm_num)
      rw [List.foldl_cons, hupd, hcons, ih _ hlt]
      simp only [u64Add, List.sum_cons]
      congr 1
      omega

theorem foldDistinct_none (i : Nat) (rgs : List RowGroupMetaData) :
    rgs.foldl (fun a rg => distinctUpdate (rg.column i) a) none =
      (if anyChunkStats rgs i then some ((distinctContribs rgs i).sum % 2 ^ 64) else none) := by
  induction rgs with
  | nil => simp [anyChunkStats]
  | cons rg rest ih =>
    cases h : (rg.column i).statistics with
    | none =>
      have hcons : distinctContribs (rg :: rest) i = distinctContribs rest i := by
        simp [distinctContribs, List.filterMap_cons, h]
      have hupd : distinctUpdate (rg.column i) none = none := by simp [distinctUpdate, h]
      have hany : anyChunkStats (rg :: rest) i = anyChunkStats rest i := by
        simp [anyChunkStats, h]
      rw [List.foldl_cons, hupd, ih, hcons, hany]
    | some stats =>
      have hcons : distinctContribs (rg :: rest) i =
          stats.distinctCountOpt.getD 0 :: distinctContribs rest i := by
        simp [distinctContribs, List.filterMap_cons, h]
      have hupd : distinctUpdate (rg.column i) none =
          some (u64Add 0 (stats.distinctCountOpt.getD 0)) := by simp [distinctUpdate, h]
      have hz : u64Add 0 (stats.distinctCountOpt.getD 0) =
          stats.distinctCountOpt.getD 0 % 2 ^ 64 := by simp [u64Add]
      have hlt : stats.distinctCountOpt.getD 0 % 2 ^ 64 < 2 ^ 64 :=
        Nat.mod_lt _ (by norm_num)
      have hany : anyChunkStats (rg :: rest) i = true := by
        simp [anyChunkStats, h]
      rw [List.foldl_cons, hupd, hz, foldDistinct_some i rest _ hlt, hcons, hany]
      simp only [List.sum_cons, if_true]
      congr 1
      omega

/-- C3.  In `aggregate_column_stats` the final min (resp. max) is the
decoding — performed only after the whole fold, with the column's physical
type — of the running lexicographic minimum (resp. maximum) of the raw
min/max byte strings supplied by chunks with statistics: the running extreme
is replaced only by a candidate comparing strictly smaller (resp. greater)
in lexicographic byte order. -/
theorem aggregate_min_max_lex (rgs : List RowGroupMetaData) (i : Nat) (pt : PhysicalType) :
    (aggregate_column_stats rgs i pt).min =
      (lexRunningMin (minBytesCandidates rgs i)).map (fun b => decode_value b pt) ∧
    (aggregate_column_stats rgs i pt).max =
      (lexRunningMax (maxBytesCandidates rgs i)).map (fun b => decode_value b pt) := by
  unfold aggregate_column_stats
  rw [statsFold_eq]
  constructor
  · simp only [foldMin_eq_candidates, lexRunningMin]
  · simp only [foldMax_eq_candidates, lexRunningMax]

/-- C4.  `total_compressed_size` (resp. `total_uncompressed_size`) is the
exact sum over all row groups of the column chunk's compressed (resp.
uncompressed) size, independent of statistics presence — provided the `u64`
sums do not wrap (sizes are summed with wrapping `u64` addition in the
model, faithfully to release-mode Rust). -/
theorem aggregate_total_sizes (rgs : List RowGroupMetaData) (i : Nat) (pt : PhysicalType)
    (hc : (rgs.map fun rg => i64AsU64 (rg.column i).compressedSize).sum < 2 ^ 64)
    (hu : (rgs.map fun rg => i64AsU64 (rg.column i).uncompressedSize).sum < 2 ^ 64) :
    (aggregate_column_stats rgs i pt).total_compressed_size =
      (rgs.map fun rg => i64AsU64 (rg.column i).compressedSize).sum ∧
    (aggregate_column_stats rgs i pt).total_uncompressed_size =
      (rgs.map fun rg => i64AsU64 (rg.column i).uncompressedSize).sum := by
  unfold aggregate_column_stats
  rw [statsFold_eq]
  constructor
  · show List.foldl (fun a rg => u64Add a (i64AsU64 (rg.column i).compressedSize)) 0 rgs = _
    rw [foldU64Add_eq (fun rg => i64AsU64 (rg.column i).compressedSize) rgs 0 (by norm_num)]
    simpa using Nat.mod_eq_of_lt hc
  · show List.foldl (fun a rg => u64Add a (i64AsU64 (rg.column i).uncompressedSize)) 0 rgs = _
    rw [foldU64Add_eq (fun rg => i64AsU64 (rg.column i).uncompressedSize) rgs 0 (by norm_num)]
    simpa using Nat.mod_eq_of_lt hu

/-- Concrete instantiation of `aggregate_total_sizes`: two row groups with
sizes 10/20 and 5/7 sum to 15/27 whether or not chunks carry statistics
(the first chunk does, the second does not). -/
theorem aggregate_total_sizes_witness :
    (aggregate_column_stats
      [⟨[⟨"SNAPPY", ["PLAIN"], some ⟨some 1, none, some [3], some [9]⟩, 10, 20⟩]⟩,
       ⟨[⟨"GZIP", ["RLE"], none, 5, 7⟩]⟩] 0 .INT32).total_compressed_size = 15 ∧
    (aggregate_column_stats
      [⟨[⟨"SNAPPY", ["PLAIN"], some ⟨some 1, none, some [3], some [9]⟩, 10, 20⟩]⟩,
       ⟨[⟨"GZIP", ["RLE"], none, 5, 7⟩]⟩] 0 .INT32).total_uncompressed_size = 27 := by
  have h := aggregate_total_sizes
    [⟨[⟨"SNAPPY", ["PLAIN"], some ⟨some 1, none, some [3], some [9]⟩, 10, 20⟩]⟩,
     ⟨[⟨"GZIP", ["RLE"], none, 5, 7⟩]⟩] 0 .INT32 (by decide) (by decide)
  exact ⟨h.1.trans (by decide), h.2.trans (by decide)⟩

/-- C10.  The distinct count produced by `aggregate_column_stats` is `some`
exactly when at least one chunk carries statistics — absent per-chunk
distinct counts (and null counts) contribute `0` — and `none` only when no
chunk has statistics at all; the null count sums the contributions of
chunks with statistics. -/
theorem aggregate_distinct_nulls (rgs : List RowGroupMetaData) (i : Nat) (pt : PhysicalType) :
    (aggregate_column_stats rgs i pt).distinct =
      (if anyChunkStats rgs i then some ((distinctContribs rgs i).sum % 2 ^ 64) else none) ∧
    (aggregate_column_stats rgs i pt).nulls = (nullContribs rgs i).sum % 2 ^ 64 := by
  unfold aggregate_column_stats
  rw [statsFold_eq]
  constructor
  · show List.foldl (fun a rg => distinctUpdate (rg.column i) a) none rgs = _
    exact foldDistinct_none i rgs
  · show List.foldl (fun a rg => nullsUpdate (rg.column i) a) 0 rgs = _
    simpa using foldNulls_eq i rgs 0 (by norm_num)

/-! ### `decode_value` fallbacks (claims C6 and C7) -/

/-- C6.  `decode_value` is total by construction (it always returns a
string); any byte-length mismatch for a sized type tag falls through to
generic uppercase-hex rendering, and a `BYTE_ARRAY` value that is not valid
UTF-8 renders as uppercase hex. -/
theorem decode_value_hex_fallback (bytes : List Byte) (pt : PhysicalType) :
    ((pt = .INT32 ∧ bytes.length ≠ 4) ∨ (pt = .INT64 ∧ bytes.length ≠ 8) ∨
      (pt = .FLOAT ∧ bytes.length ≠ 4) ∨ (pt = .DOUBLE ∧ bytes.length ≠ 8) →
      decode_value bytes pt = hexConcat bytes) ∧
    (pt = .BYTE_ARRAY → utf8Decode bytes = none →
      decode_value bytes pt = hexConcat bytes) := by
  constructor
  · rintro (⟨rfl, hl⟩ | ⟨rfl, hl⟩ | ⟨rfl, hl⟩ | ⟨rfl, hl⟩) <;> simp [decode_value, hl]
  · rintro rfl hu
    simp [decode_value, hu]

/-- Concrete instantiation of `decode_value_hex_fallback`: a 2-byte INT32
value and an invalid-UTF-8 BYTE_ARRAY value both render as uppercase hex. -/
theorem decode_value_hex_fallback_witness :
    decode_value [1, 2] .INT32 = "0102" ∧
    decode_value [255, 254, 253] .BYTE_ARRAY = "FFFEFD" := by
  constructor
  · exact ((decode_value_hex_fallback [1, 2] .INT32).1
      (Or.inl ⟨rfl, by decide⟩)).trans (by decide)
  · exact ((decode_value_hex_fallback [255, 254, 253] .BYTE_ARRAY).2
      rfl (by decide)).trans (by decide)

/-- C7 (counterexample).  Decoding a BOOLEAN byte does not yield
`"true"`/`"false"`: `decode_value` has no BOOLEAN arm, so the byte `0x01`
renders as the hex string `"01"`. -/
theorem decode_value_boolean_counterexample :
    decode_value [1] .BOOLEAN = "01" ∧ decode_value [0] .BOOLEAN = "00" ∧
    "01" ≠ "true" ∧ "01" ≠ "false" := by
  exact ⟨by decide, by decide, by decide, by decide⟩

/-- C7 (amended).  Decoding a BOOLEAN value falls through to the generic
uppercase-hex arm of `decode_value`, whatever the byte string. -/
theorem decode_value_boolean_hex (bytes : List Byte) :
    decode_value bytes .BOOLEAN = hexConcat bytes := by
  simp [decode_value]

/-! ### Tree-shape invariants of `traverse` (claim C5) -/

/-- Whether a `SchemaInfo` entry is the `Root` variant. -/
def isRootInfo : SchemaInfo → Bool
  | .Root _ _ => true
  | _ => false

/-- Whether a `SchemaInfo` entry is the `Primitive` variant. -/
def isPrimitiveInfo : SchemaInfo → Bool
  | .Primitive _ _ _ _ => true
  | _ => false

mutual

theorem traverse_shape (summaries : List (String × String)) (rgs : List RowGroupMetaData)
    (node : ParquetType) (pref : String) (isLast : Bool)
    (lines : List SchemaInfo) (leafIdx : Nat) :
    ∃ tail, (traverse summaries rgs node pref isLast lines leafIdx).1 = lines ++ tail ∧
      ∀ x ∈ tail, isRootInfo x = false := by
  cases node with
  | primitive name repetition logical converted physical =>
    refine ⟨_, rfl, ?_⟩
    intro x hx
    simp only [List.mem_singleton] at hx
    subst hx
    rfl
  | group name repetition fields =>
    obtain ⟨tail, heq, hall⟩ :=
      traverseChildren_shape summaries rgs fields 0 fields.length
        (pref ++ (if isLast then "   " else "│  "))
        (lines ++ [SchemaInfo.Group name
          (pref ++ (if isLast then "└─" else "├─") ++ " " ++
            (ParquetType.group name repetition fields).name) repetition])
        leafIdx
    have heq' : (traverse summaries rgs (.group name repetition fields) pref isLast
        lines leafIdx).1 =
        lines ++ (SchemaInfo.Group name
          (pref ++ (if isLast then "└─" else "├─") ++ " " ++
            (ParquetType.group name repetition fields).name) repetition :: tail) := by
      show (traverseChildren summaries rgs fields 0 fields.length
        (pref ++ (if isLast then "   " else "│  "))
        (lines ++ [SchemaInfo.Group name
          (pref ++ (if isLast then "└─" else "├─") ++ " " ++
            (ParquetType.group name repetition fields).name) repetition]) leafIdx).1 = _
      rw [heq, List.append_assoc]
      rfl
    refine ⟨_, heq', ?_⟩
    intro x hx
    rcases List.mem_cons.mp hx with hx | hx
    · subst hx; rfl
    · exact hall x hx

theorem traverseChildren_shape (summaries : List (String × String))
    (rgs : List RowGroupMetaData) (fields : List ParquetType) (idx count : Nat)
    (pref : String) (lines : List SchemaInfo) (leafIdx : Nat) :
    ∃ tail, (traverseChildren summaries rgs fields idx count pref lines leafIdx).1 =
        lines ++ tail ∧ ∀ x ∈ tail, isRootInfo x = false := by
  cases fields with
  | nil => exact ⟨[], by simp [traverseChildren], by simp⟩
  | cons child rest =>
    obtain ⟨t1, h1, hall1⟩ :=
      traverse_shape summaries rgs child pref (idx = count - 1) lines leafIdx
    obtain ⟨t2, h2, hall2⟩ :=
      traverseChildren_shape summaries rgs rest (idx + 1) count pref
        (traverse summaries rgs child pref (idx = count - 1) lines leafIdx).1
        (traverse summaries rgs child pref (idx = count - 1) lines leafIdx).2
    refine ⟨t1 ++ t2, ?_, ?_⟩
    · rw [traverseChildren]
      rw [h2, h1, List.append_assoc]
    · intro x hx
      rcases List.mem_append.mp hx with hx | hx
      · exact hall1 x hx
      · exact hall2 x hx

end

/-- C5.  `from_metadata` always emits the `Root` entry first, it is the only
`Root` entry, `column_size()` is the number of `Primitive` entries in the
list, and a schema with zero top-level fields yields exactly `[Root]`. -/
theorem from_metadata_shape (setEnum : List String → List String) (md : ParquetMetaData) :
    (FileSchema.from_metadata setEnum md).columns.head? =
      some (.Root "root" "└─ root") ∧
    (FileSchema.from_metadata setEnum md).columns.filter isRootInfo =
      [.Root "root" "└─ root"] ∧
    (FileSchema.from_metadata setEnum md).column_size =
      ((FileSchema.from_metadata setEnum md).columns.filter isPrimitiveInfo).length ∧
    (md.rootFields = [] →
      (FileSchema.from_metadata setEnum md).columns = [.Root "root" "└─ root"]) := by
  obtain ⟨tail, heq, hall⟩ :=
    traverseChildren_shape (columnSummaries setEnum md) md.rowGroups md.rootFields 0
      md.rootFields.length "   " [SchemaInfo.Root "root" "└─ root"] 0
  have hcols : (FileSchema.from_metadata setEnum md).columns =
      SchemaInfo.Root "root" "└─ root" :: tail := by
    show (traverseChildren (columnSummaries setEnum md) md.rowGroups md.rootFields 0
      md.rootFields.length "   " [SchemaInfo.Root "root" "└─ root"] 0).1 = _
    rw [heq]; rfl
  refine ⟨?_, ?_, ?_, ?_⟩
  · rw [hcols]; rfl
  · rw [hcols]
    have htail : tail.filter isRootInfo = [] := by
      rw [List.filter_eq_nil_iff]
      intro x hx
      simp [hall x hx]
    simp [List.filter_cons, isRootInfo, htail]
  · rfl
  · intro hempty
    rw [hcols]
    have : (traverseChildren (columnSummaries setEnum md) md.rowGroups md.rootFields 0
        md.rootFields.length "   " [SchemaInfo.Root "root" "└─ root"] 0).1 =
        [SchemaInfo.Root "root" "└─ root"] := by
      rw [hempty, traverseChildren]
    rw [heq] at this
    have : tail = [] := by simpa using this
    rw [this]

/-- A fixed valid hash-set enumeration model: Mathlib's `dedup`. -/
def dedupEnum : List String → List String := fun l => l.dedup

theorem isSetEnum_dedup : IsSetEnum dedupEnum := by
  intro l
  exact ⟨l.nodup_dedup, fun s => List.mem_dedup⟩

/-- Concrete instantiation of `from_metadata_shape`: a metadata with zero
top-level fields yields exactly the one-element list `[Root]`. -/
theorem from_metadata_shape_witness :
    (FileSchema.from_metadata dedupEnum ⟨[], []⟩).columns =
      [.Root "root" "└─ root"] :=
  (from_metadata_shape dedupEnum ⟨[], []⟩).2.2.2 rfl

/-! ### Codec/encoding summaries (claim C8) -/

/-- Another valid hash-set enumeration model: `dedup` then reverse.  Std's
`HashSet` iteration order is unspecified, so any duplicate-free enumeration
of the inserted elements is a legitimate behavior of the source. -/
def revDedupEnum : List String → List String := fun l => l.dedup.reverse

theorem isSetEnum_revDedup : IsSetEnum revDedupEnum := by
  intro l
  constructor
  · exact List.nodup_reverse.mpr l.nodup_dedup
  · intro s
    simp [revDedupEnum, List.mem_reverse, List.mem_dedup]

/-- C8 (amended).  Each per-column summary joins, with `", "`, some
duplicate-free enumeration of exactly the distinct codec (resp. encoding)
tags observed across all row groups for that column — de-duplicated and
joined as the claim states, but in the unspecified `HashSet` iteration
order, not necessarily sorted. -/
theorem columnSummaries_dedup_join (setEnum : List String → List String)
    (h : IsSetEnum setEnum) (md : ParquetMetaData) (colIdx : Nat)
    (hlt : colIdx < md.numColumns) :
    ∃ codecs encodings : List String,
      (columnSummaries setEnum md).getD colIdx ("", "") =
        (String.intercalate ", " codecs, String.intercalate ", " encodings) ∧
      codecs.Nodup ∧
      (∀ s, s ∈ codecs ↔ s ∈ columnCodecTags md.rowGroups colIdx) ∧
      encodings.Nodup ∧
      (∀ s, s ∈ encodings ↔ s ∈ columnEncodingTags md.rowGroups colIdx) := by
  refine ⟨setEnum (columnCodecTags md.rowGroups colIdx),
    setEnum (columnEncodingTags md.rowGroups colIdx), ?_,
    (h _).1, (h _).2, (h _).1, (h _).2⟩
  simp [columnSummaries, List.getD_eq_getElem?_getD, List.getElem?_map,
    List.getElem?_range, hlt]

/-- The two-row-group, one-column metadata used to exhibit the unsorted
summary: codecs observed in order `GZIP` then `SNAPPY`. -/
def mdUnsorted : ParquetMetaData :=
  ⟨[⟨[⟨"GZIP", ["PLAIN"], none, 1, 1⟩]⟩, ⟨[⟨"SNAPPY", ["PLAIN"], none, 1, 1⟩]⟩],
   [.primitive "c" "REQUIRED" none "NONE" .INT32]⟩

/-- C8 (counterexample).  Under a legitimate hash-set enumeration
(`revDedupEnum`), the codec summary of `mdUnsorted`'s only column is
`"SNAPPY, GZIP"`, not the sorted join `"GZIP, SNAPPY"` the claim requires:
the source collects the tags from a `HashSet`, whose iteration order is not
sorted. -/
theorem columnSummaries_not_sorted_counterexample :
    IsSetEnum revDedupEnum ∧
    ((columnSummaries revDedupEnum mdUnsorted).getD 0 ("", "")).1 = "SNAPPY, GZIP" ∧
    "SNAPPY, GZIP" ≠ String.intercalate ", " ["GZIP", "SNAPPY"] := by
  exact ⟨isSetEnum_revDedup, by decide, by decide⟩

/-- Concrete instantiation of `columnSummaries_dedup_join` at `dedupEnum`
and `mdUnsorted`'s single column. -/
theorem columnSummaries_dedup_join_witness :
    ∃ codecs encodings : List String,
      (columnSummaries dedupEnum mdUnsorted).getD 0 ("", "") =
        (String.intercalate ", " codecs, String.intercalate ", " encodings) ∧
      codecs.Nodup ∧
      (∀ s, s ∈ codecs ↔ s ∈ columnCodecTags mdUnsorted.rowGroups 0) ∧
      encodings.Nodup ∧
      (∀ s, s ∈ encodings ↔ s ∈ columnEncodingTags mdUnsorted.rowGroups 0) :=
  columnSummaries_dedup_join dedupEnum isSetEnum_dedup mdUnsorted 0 (by decide)

/-! ### INT96 timestamp rendering (claim C9) -/

/-- C9.  Decoding the 12-byte INT96 record with nanoseconds `0` (LE `u64`)
and Julian day `2440588` (LE `u32`, bytes `8C 3D 25 00`) renders exactly
`"1970-01-01 00:00:00.000000000 UTC"`; and whenever the computed timestamp
is outside chrono's representable range, the rendering falls back to the raw
`(nanos, julian_day)` pair. -/
theorem int96_epoch_and_fallback :
    int96ValueString [0, 0, 0, 0, 0, 0, 0, 0, 140, 61, 37, 0] =
      "1970-01-01 00:00:00.000000000 UTC" ∧
    ∀ record : List Byte,
      chronoTimestampValid (int96TimestampSecs record) (int96NsecsU32 record) = false →
      int96ValueString record =
        "INT96(nanos=" ++ toString (int96Nanos record) ++
          ", julian_day=" ++ toString (int96JulianDay record) ++ ")" := by
  constructor
  · decide
  · intro record h
    simp [int96ValueString, h]

/-- Concrete instantiation of the fallback half of `int96_epoch_and_fallback`:
Julian day `0` wraps the `i64` nanosecond computation into a negative
remainder, whose `u32` cast exceeds chrono's limit, so the raw pair is
printed. -/
theorem int96_fallback_witness :
    int96ValueString [0, 0, 0, 0, 0, 0, 0, 0, 0, 0, 0, 0] =
      "INT96(nanos=0, julian_day=0)" :=
  (int96_epoch_and_fallback.2 [0, 0, 0, 0, 0, 0, 0, 0, 0, 0, 0, 0]
    (by decide)).trans (by decide)

/-! ### Length bounds for the dictionary scan (claim C1) -/

theorem byteArrayLoop_length_le (buf : List Byte) (m : Nat) :
    ∀ (fuel off : Nat) (acc : List String), acc.length < m →
      (byteArrayLoop buf m fuel off acc).length ≤ m := by
  intro fuel
  induction fuel with
  | zero => intro off acc hacc; exact Nat.le_of_lt hacc
  | succ fuel ih =>
    intro off acc hacc
    simp only [byteArrayLoop]
    split
    · exact Nat.le_of_lt hacc
    · split
      · exact Nat.le_of_lt hacc
      · split
        · next hstop =>
          simp only [List.length_append, List.length_singleton] at hstop ⊢
          omega
        · next hstop =>
          apply ih
          simp only [List.length_append, List.length_singleton] at hstop ⊢
          omega

theorem fixedStrideValues_length_le (pt : PhysicalType) (buf : List Byte)
    (nv m : Nat) : (fixedStrideValues pt buf nv m).length ≤ m := by
  calc (fixedStrideValues pt buf nv m).length
      ≤ (List.range (min (min (buf.length / strideOf pt) nv) m)).length :=
        List.length_filterMap_le _ _
    _ ≤ m := by simp [Nat.min_le_right]

theorem processDictPage_length_le (pt : PhysicalType) (m : Nat) (acc : List String)
    (page : Page) (hacc : acc.length ≤ m - 1) :
    (processDictPage pt m acc page).length ≤ m - 1 + max m 1 := by
  have hmax : m ≤ m - 1 + max m 1 := by omega
  cases pt with
  | BYTE_ARRAY =>
    rcases Nat.eq_zero_or_pos m with hm | hm
    · subst hm
      simp only [processDictPage, Nat.min_zero]
      rw [byteArrayLoop]
      omega
    · exact le_trans
        (byteArrayLoop_length_le page.buffer m _ 0 acc (by omega)) hmax
  | INT32 =>
    simp only [processDictPage, List.length_append]
    have := fixedStrideValues_length_le .INT32 page.buffer page.numValues m
    omega
  | INT64 =>
    simp only [processDictPage, List.length_append]
    have := fixedStrideValues_length_le .INT64 page.buffer page.numValues m
    omega
  | INT96 =>
    simp only [processDictPage, List.length_append]
    have := fixedStrideValues_length_le .INT96 page.buffer page.numValues m
    omega
  | FLOAT =>
    simp only [processDictPage, List.length_append]
    have := fixedStrideValues_length_le .FLOAT page.buffer page.numValues m
    omega
  | DOUBLE =>
    simp only [processDictPage, List.length_append]
    have := fixedStrideValues_length_le .DOUBLE page.buffer page.numValues m
    omega
  | BOOLEAN =>
    simp only [processDictPage, List.length_append, List.length_singleton]
    omega
  | FIXED_LEN_BYTE_ARRAY =>
    simp only [processDictPage, List.length_append, List.length_singleton]
    omega

theorem readPages_length_le (pt : PhysicalType) (m : Nat) :
    ∀ (pages : PageStream) (acc : List String), acc.length ≤ m - 1 →
      ∀ l, readPages pt m pages acc = .ok l → l.length ≤ m - 1 + max m 1 := by
  intro pages
  induction pages with
  | nil =>
    intro acc hacc l hl
    cases hl
    omega
  | cons r rest ih =>
    intro acc hacc l hl
    cases r with
    | error e => exact absurd hl (by simp [readPages])
    | ok page =>
      simp only [readPages] at hl
      by_cases hdict : page.pageType = .DICTIONARY_PAGE
      · rw [if_pos hdict] at hl
        by_cases hstop : m ≤ (processDictPage pt m acc page).length
        · rw [if_pos hstop] at hl
          cases hl
          exact processDictPage_length_le pt m acc page hacc
        · rw [if_neg hstop] at hl
          exact ih _ (by omega) l hl
      · rw [if_neg hdict] at hl
        exact ih _ hacc l hl

theorem rowGroupLoop_length_le (pt : PhysicalType) (m : Nat) :
    ∀ (streams : List (Except String PageStream)) (acc : List String),
      acc.length ≤ m - 1 →
      ∀ l, rowGroupLoop pt m streams acc = .ok l → l.length ≤ m - 1 + max m 1 := by
  intro streams
  induction streams with
  | nil =>
    intro acc hacc l hl
    cases hl
    omega
  | cons s rest ih =>
    intro acc hacc l hl
    cases s with
    | error e => exact absurd hl (by simp [rowGroupLoop])
    | ok pages =>
      rw [rowGroupLoop] at hl
      split at hl
      · exact absurd hl (by simp)
      · rename_i acc' hread
        by_cases hstop : m ≤ acc'.length
        · rw [if_pos hstop] at hl
          cases hl
          exact readPages_length_le pt m pages acc hacc _ hread
        · rw [if_neg hstop] at hl
          exact ih _ (by omega) l hl

/-! ### Completeness of untruncated page decodes (claim C1, second half) -/

/-- The buffer parses at least `k` complete BYTE_ARRAY PLAIN records
starting at `off`: each record's 4-byte length header and payload fit
within the buffer. -/
def parsesAtLeast (buf : List Byte) : Nat → Nat → Bool
  | _, 0 => true
  | off, k + 1 =>
    if off + 4 > buf.length then false
    else if off + 4 + leNat ((buf.drop off).take 4) > buf.length then false
    else parsesAtLeast buf (off + 4 + leNat ((buf.drop off).take 4)) k

/-- A dictionary page is untruncated for a physical type when its buffer
holds all `num_values` records: `num_values` parseable length-prefixed
records for BYTE_ARRAY, `num_values` full strides for fixed-width types. -/
def pageUntruncated (pt : PhysicalType) (page : Page) : Bool :=
  match pt with
  | .BYTE_ARRAY => parsesAtLeast page.buffer 0 page.numValues
  | _ => decide (page.numValues * strideOf pt ≤ page.buffer.length)

/-- The dictionary pages successfully fetched from one page stream, in
order. -/
def dictPagesOfStream (pages : PageStream) : List Page :=
  pages.filterMap fun r =>
    match r with
    | .ok page => if page.pageType = .DICTIONARY_PAGE then some page else none
    | .error _ => none

/-- Total `num_values` over one stream's dictionary pages. -/
def streamDictTotal (pages : PageStream) : Nat :=
  ((dictPagesOfStream pages).map Page.numValues).sum

/-- All dictionary pages across all row-group streams, in scan order. -/
def dictPages (streams : List (Except String PageStream)) : List Page :=
  streams.flatMap fun s =>
    match s with
    | .ok ps => dictPagesOfStream ps
    | .error _ => []

/-- The column's total number of dictionary entries: the sum of
`num_values` over every dictionary page of every row group. -/
def totalDictNumValues (streams : List (Except String PageStream)) : Nat :=
  ((dictPages streams).map Page.numValues).sum

theorem parsesAtLeast_mono (buf : List Byte) :
    ∀ (k j off : Nat), j ≤ k → parsesAtLeast buf off k = true →
      parsesAtLeast buf off j = true := by
  intro k
  induction k with
  | zero =>
    intro j off hj h
    interval_cases j
    exact h
  | succ k ih =>
    intro j off hj h
    cases j with
    | zero => rfl
    | succ j =>
      rw [parsesAtLeast] at h ⊢
      by_cases h1 : off + 4 > buf.length
      · rw [if_pos h1] at h; exact absurd h (by simp)
      · rw [if_neg h1] at h ⊢
        by_cases h2 : off + 4 + leNat ((buf.drop off).take 4) > buf.length
        · rw [if_pos h2] at h; exact absurd h (by simp)
        · rw [if_neg h2] at h ⊢
          exact ih j _ (by omega) h

theorem byteArrayLoop_complete (buf : List Byte) (m : Nat) :
    ∀ (fuel off : Nat) (acc : List String),
      parsesAtLeast buf off fuel = true →
      (byteArrayLoop buf m fuel off acc).length < m →
      (byteArrayLoop buf m fuel off acc).length = acc.length + fuel := by
  intro fuel
  induction fuel with
  | zero =>
    intro off acc _ _
    rw [byteArrayLoop]
    omega
  | succ fuel ih =>
    intro off acc hp hres
    rw [parsesAtLeast] at hp
    by_cases h1 : off + 4 > buf.length
    · rw [if_pos h1] at hp; exact absurd hp (by simp)
    · rw [if_neg h1] at hp
      by_cases h2 : off + 4 + leNat ((buf.drop off).take 4) > buf.length
      · rw [if_pos h2] at hp; exact absurd hp (by simp)
      · rw [if_neg h2] at hp
        simp only [byteArrayLoop] at hres ⊢
        rw [if_neg h1, if_neg h2] at hres ⊢
        by_cases hstop : m ≤ (acc ++ [byteArrayRecordString buf off]).length
        · rw [if_pos hstop] at hres
          simp only [List.length_append, List.length_singleton] at hres hstop
          omega
        · rw [if_neg hstop] at hres ⊢
          rw [ih _ _ hp hres]
          simp only [List.length_append, List.length_singleton]
          omega

theorem length_filterMap_some {α β : Type} (f : α → β) (l : List α) :
    (l.filterMap fun a => some (f a)).length = l.length := by
  induction l with
  | nil => rfl
  | cons a t ih => simp [List.filterMap_cons, ih]

theorem fixedStrideValues_length (pt : PhysicalType) (buf : List Byte) (nv m : Nat)
    (hs : 0 < strideOf pt) :
    (fixedStrideValues pt buf nv m).length =
      min (min (buf.length / strideOf pt) nv) m := by
  unfold fixedStrideValues
  have hcongr : ∀ i ∈ List.range (min (min (buf.length / strideOf pt) nv) m),
      (fun i =>
        if i * strideOf pt + strideOf pt ≤ buf.length then
          some (fixedRecordString pt
            ((buf.drop (i * strideOf pt)).take (strideOf pt)))
        else none) i =
      (fun i => some (fixedRecordString pt
        ((buf.drop (i * strideOf pt)).take (strideOf pt)))) i := by
    intro i hi
    rw [List.mem_range] at hi
    have hdiv : i + 1 ≤ buf.length / strideOf pt := by omega
    have hmul : (i + 1) * strideOf pt ≤ buf.length :=
      le_trans (Nat.mul_le_mul_right _ hdiv) (Nat.div_mul_le_self _ _)
    rw [Nat.succ_mul] at hmul
    simp only [if_pos hmul]
  rw [List.filterMap_congr hcongr, length_filterMap_some, List.length_range]

theorem processDictPage_complete (pt : PhysicalType) (m : Nat) (acc : List String)
    (page : Page) (h1 : pt ≠ .BOOLEAN) (h2 : pt ≠ .FIXED_LEN_BYTE_ARRAY)
    (hu : pageUntruncated pt page = true)
    (hres : (processDictPage pt m acc page).length < m) :
    (processDictPage pt m acc page).length = acc.length + page.numValues := by
  have hfixed : ∀ hpt : PhysicalType, hpt = pt →
      processDictPage pt m acc page = acc ++ fixedStrideValues pt page.buffer page.numValues m →
      0 < strideOf pt →
      page.numValues * strideOf pt ≤ page.buffer.length →
      (processDictPage pt m acc page).length = acc.length + page.numValues := by
    intro _ _ hform hs hlen
    rw [hform, List.length_append,
      fixedStrideValues_length pt page.buffer page.numValues m hs] at hres ⊢
    have hdiv : page.numValues ≤ page.buffer.length / strideOf pt :=
      (Nat.le_div_iff_mul_le hs).mpr hlen
    omega
  cases pt with
  | BOOLEAN => exact absurd rfl h1
  | FIXED_LEN_BYTE_ARRAY => exact absurd rfl h2
  | BYTE_ARRAY =>
    simp only [pageUntruncated] at hu
    simp only [processDictPage] at hres ⊢
    have hmono : parsesAtLeast page.buffer 0 (min page.numValues m) = true :=
      parsesAtLeast_mono page.buffer page.numValues (min page.numValues m) 0
        (Nat.min_le_left _ _) hu
    have h := byteArrayLoop_complete page.buffer m (min page.numValues m) 0 acc hmono hres
    rw [h] at hres ⊢
    omega
  | INT32 =>
    exact hfixed .INT32 rfl rfl (by decide) (by simpa [pageUntruncated] using hu)
  | INT64 =>
    exact hfixed .INT64 rfl rfl (by decide) (by simpa [pageUntruncated] using hu)
  | INT96 =>
    exact hfixed .INT96 rfl rfl (by decide) (by simpa [pageUntruncated] using hu)
  | FLOAT =>
    exact hfixed .FLOAT rfl rfl (by decide) (by simpa [pageUntruncated] using hu)
  | DOUBLE =>
    exact hfixed .DOUBLE rfl rfl (by decide) (by simpa [pageUntruncated] using hu)

theorem readPages_complete (pt : PhysicalType) (m : Nat)
    (h1 : pt ≠ .BOOLEAN) (h2 : pt ≠ .FIXED_LEN_BYTE_ARRAY) :
    ∀ (pages : PageStream) (acc : List String) (l : List String),
      (∀ page ∈ dictPagesOfStream pages, pageUntruncated pt page = true) →
      readPages pt m pages acc = .ok l → l.length < m →
      l.length = acc.length + streamDictTotal pages := by
  intro pages
  induction pages with
  | nil =>
    intro acc l _ hl _
    cases hl
    simp [streamDictTotal, dictPagesOfStream]
  | cons r rest ih =>
    intro acc l hu hl hres
    cases r with
    | error e => exact absurd hl (by simp [readPages])
    | ok page =>
      simp only [readPages] at hl
      by_cases hdict : page.pageType = .DICTIONARY_PAGE
      · rw [if_pos hdict] at hl
        have hcons : dictPagesOfStream (.ok page :: rest) =
            page :: dictPagesOfStream rest := by
          simp [dictPagesOfStream, List.filterMap_cons, hdict]
        have htot : streamDictTotal (.ok page :: rest) =
            page.numValues + streamDictTotal rest := by
          simp [streamDictTotal, hcons]
        by_cases hstop : m ≤ (processDictPage pt m acc page).length
        · rw [if_pos hstop] at hl
          cases hl
          omega
        · rw [if_neg hstop] at hl
          have hlen := ih _ l
            (fun p hp => hu p (by rw [hcons]; exact List.mem_cons_of_mem _ hp)) hl hres
          have hpage := processDictPage_complete pt m acc page h1 h2
            (hu page (by rw [hcons]; exact List.mem_cons_self _ _)) (by omega)
          omega
      · rw [if_neg hdict] at hl
        have hcons : dictPagesOfStream (.ok page :: rest) = dictPagesOfStream rest := by
          simp [dictPagesOfStream, List.filterMap_cons, hdict]
        have htot : streamDictTotal (.ok page :: rest) = streamDictTotal rest := by
          simp [streamDictTotal, hcons]
        have := ih _ l (fun p hp => hu p (by rw [hcons]; exact hp)) hl hres
        omega

theorem rowGroupLoop_complete (pt : PhysicalType) (m : Nat)
    (h1 : pt ≠ .BOOLEAN) (h2 : pt ≠ .FIXED_LEN_BYTE_ARRAY) :
    ∀ (streams : List (Except String PageStream)) (acc : List String) (l : List String),
      (∀ page ∈ dictPages streams, pageUntruncated pt page = true) →
      rowGroupLoop pt m streams acc = .ok l → l.length < m →
      l.length = acc.length + totalDictNumValues streams := by
  intro streams
  induction streams with
  | nil =>
    intro acc l _ hl _
    cases hl
    simp [totalDictNumValues, dictPages]
  | cons s rest ih =>
    intro acc l hu hl hres
    cases s with
    | error e => exact absurd hl (by simp [rowGroupLoop])
    | ok pages =>
      have hcons : dictPages (.ok pages :: rest) =
          dictPagesOfStream pages ++ dictPages rest := by
        simp [dictPages, List.flatMap_cons]
      have htot : totalDictNumValues (.ok pages :: rest) =
          streamDictTotal pages + totalDictNumValues rest := by
        simp [totalDictNumValues, hcons, streamDictTotal]
      rw [rowGroupLoop] at hl
      split at hl
      · exact absurd hl (by simp)
      · rename_i acc' hread
        by_cases hstop : m ≤ acc'.length
        · rw [if_pos hstop] at hl
          cases hl
          omega
        · rw [if_neg hstop] at hl
          have hrest := ih _ l
            (fun p hp => hu p (by rw [hcons]; exact List.mem_append_right _ hp)) hl hres
          have hstream := readPages_complete pt m h1 h2 pages acc acc'
            (fun p hp => hu p (by rw [hcons]; exact List.mem_append_left _ hp))
            hread (by omega)
          omega

/-- C1 (amended).  A successful dictionary scan returns at most
`max_items - 1 + max max_items 1` values (that is, `2·max_items − 1` for a
positive cap): each dictionary page's decode caps only its own additions at
`max_items`, without counting values collected from earlier pages, so the
result can overshoot `max_items` itself.  Moreover, for a column whose
physical type has a dedicated decoder and whose dictionary pages are all
untruncated, a result shorter than `max_items` holds exactly the column's
total number of dictionary entries. -/
theorem extract_dictionary_values_length_bound
    (streams : List (Except String PageStream)) (pt : PhysicalType) (m : Nat)
    (l : List String) (hok : extract_dictionary_values streams pt m = .ok l) :
    l.length ≤ m - 1 + max m 1 ∧
    (pt ≠ .BOOLEAN → pt ≠ .FIXED_LEN_BYTE_ARRAY →
      (∀ page ∈ dictPages streams, pageUntruncated pt page = true) →
      l.length < m → l.length = totalDictNumValues streams) := by
  constructor
  · exact rowGroupLoop_length_le pt m streams [] (by simp) l hok
  · intro h1 h2 hu hres
    simpa using rowGroupLoop_complete pt m h1 h2 streams [] l hu hok hres

/-- Concrete instantiation of `extract_dictionary_values_length_bound`: one
INT32 dictionary page with two entries and a cap of 10 yields both the bound
and, being shorter than the cap, exactly the column's 2 dictionary
entries. -/
theorem extract_dictionary_values_length_bound_witness :
    (["1", "2"] : List String).length ≤ 10 - 1 + max 10 1 ∧
    (["1", "2"] : List String).length =
      totalDictNumValues [.ok [.ok ⟨.DICTIONARY_PAGE, [1, 0, 0, 0, 2, 0, 0, 0], 2⟩]] := by
  have h := extract_dictionary_values_length_bound
    [.ok [.ok ⟨.DICTIONARY_PAGE, [1, 0, 0, 0, 2, 0, 0, 0], 2⟩]] .INT32 10
    ["1", "2"] (by rfl)
  exact ⟨h.1, h.2 (by decide) (by decide) (by decide) (by decide)⟩

/-- C1 (counterexample).  With `max_items = 2`, an INT32 column whose first
row group's dictionary page holds one entry and whose second holds two
returns three values: the second page's decode caps its own additions at 2
without counting the value already collected, so the claimed `≤ max_items`
bound fails. -/
theorem extract_dictionary_values_overshoot_counterexample :
    extract_dictionary_values
      [.ok [.ok ⟨.DICTIONARY_PAGE, [1, 0, 0, 0], 1⟩],
       .ok [.ok ⟨.DICTIONARY_PAGE, [2, 0, 0, 0, 3, 0, 0, 0], 2⟩]] .INT32 2 =
      .ok ["1", "2", "3"] ∧
    2 < (["1", "2", "3"] : List String).length := by
  exact ⟨rfl, by decide⟩

/-! ### Error propagation in the dictionary scan (claim C2) -/

theorem readPages_continuation (pt : PhysicalType) (m : Nat) :
    ∀ (pages : PageStream) (acc l : List String) (more : PageStream),
      readPages pt m pages acc = .ok l → l.length < m →
      readPages pt m (pages ++ more) acc = readPages pt m more l := by
  intro pages
  induction pages with
  | nil =>
    intro acc l more hl _
    cases hl
    rfl
  | cons r rest ih =>
    intro acc l more hl hres
    cases r with
    | error e => exact absurd hl (by simp [readPages])
    | ok page =>
      simp only [readPages] at hl
      simp only [List.cons_append, readPages]
      by_cases hdict : page.pageType = .DICTIONARY_PAGE
      · rw [if_pos hdict] at hl ⊢
        by_cases hstop : m ≤ (processDictPage pt m acc page).length
        · rw [if_pos hstop] at hl
          cases hl
          omega
        · rw [if_neg hstop] at hl ⊢
          exact ih _ l more hl hres
      · rw [if_neg hdict] at hl ⊢
        exact ih _ l more hl hres

/-- C2 (amended).  When the page stream errors mid-scan before `max_items`
values have been collected, `extract_dictionary_values` propagates the error
(through `?`) instead of returning the partially decoded values: the values
decoded before the failure are discarded. -/
theorem extract_dictionary_values_error_propagates (pt : PhysicalType) (m : Nat)
    (pages : PageStream) (e : String) (after : PageStream)
    (rest : List (Except String PageStream)) (vals : List String)
    (hp : readPages pt m pages [] = .ok vals) (hlen : vals.length < m) :
    extract_dictionary_values (.ok (pages ++ .error e :: after) :: rest) pt m =
      .error e := by
  unfold extract_dictionary_values
  rw [rowGroupLoop]
  rw [readPages_continuation pt m pages [] vals (.error e :: after) hp hlen]
  rfl

/-- Concrete instantiation of
`extract_dictionary_values_error_propagates`: one decoded value, then a
stream failure — the scan returns the error, not `Ok(["1"])`. -/
theorem extract_dictionary_values_error_propagates_witness :
    extract_dictionary_values
      [.ok [.ok ⟨.DICTIONARY_PAGE, [1, 0, 0, 0], 1⟩, .error "mid-scan failure"]]
      .INT32 10 = .error "mid-scan failure" :=
  extract_dictionary_values_error_propagates .INT32 10
    [.ok ⟨.DICTIONARY_PAGE, [1, 0, 0, 0], 1⟩] "mid-scan failure" [] [] ["1"]
    (by rfl) (by decide)

/-- C2 (counterexample).  A page stream that yields one dictionary page and
then errors makes `extract_dictionary_values` return `Err`, not the partial
list `Ok(["2"])` the claim promises. -/
theorem extract_dictionary_values_error_counterexample :
    extract_dictionary_values
      [.ok [.ok ⟨.DICTIONARY_PAGE, [2, 0, 0, 0], 1⟩, .error "page stream error"]]
      .INT32 10 = .error "page stream error" ∧
    extract_dictionary_values
      [.ok [.ok ⟨.DICTIONARY_PAGE, [2, 0, 0, 0], 1⟩, .error "page stream error"]]
      .INT32 10 ≠ .ok ["2"] := by
  constructor
  · rfl
  · intro h
    have h1 : extract_dictionary_values
        [.ok [.ok ⟨.DICTIONARY_PAGE, [2, 0, 0, 0], 1⟩, .error "page stream error"]]
        .INT32 10 = .error "page stream error" := rfl
    rw [h1] at h
    exact Except.noConfusion h

end Parqeye
